import Mathlib

/-!
Shallow embedding of the title-case conversion engine of the
obsidian-custom-modules repository (class TitleCaseModule).

Strings are modelled as `List Char`.  The engine is embedded in the
configuration where no part-of-speech tagger is available (the source
sets `this.nlp = null` when the Compromise library is absent); in that
configuration `tokenize` attaches `posTag = null` and
`grammaticalFunction = null` to every word token, which is modelled by
passing `none` for both parameters.  JavaScript `toLowerCase` /
`toUpperCase` are modelled by the characterwise maps `jsLowerChar` /
`jsUpperChar`, which agree with ECMAScript on every code point below
128 and on the sharp s pair U+00DF / U+1E9E, including the one-to-many
uppercase mapping of U+00DF to SS; all other characters are
approximated by the identity.  Accordingly, every theorem below that
quantifies over arbitrary strings either concerns only the tokenizer
(which performs no case mapping) or carries an explicit hypothesis
restricting the input to code points below 128, where the model is
exact.
-/

namespace TitleCase

/-- Characters matched by the JavaScript regular-expression class
backslash-s (ECMAScript WhiteSpace and LineTerminator sets), written as
an explicit comparison chain.  The tokenizer regex of the source is
built from this class plus the three dash characters. -/
def isJsWhitespace (c : Char) : Bool :=
  c == ' ' || c == '\t' || c == '\n' || c == '\r' || c == '\x0b' || c == '\x0c' ||
  c == '\u00A0' || c == '\u1680' || c == '\u2000' || c == '\u2001' || c == '\u2002' ||
  c == '\u2003' || c == '\u2004' || c == '\u2005' || c == '\u2006' || c == '\u2007' ||
  c == '\u2008' || c == '\u2009' || c == '\u200A' || c == '\u2028' || c == '\u2029' ||
  c == '\u202F' || c == '\u205F' || c == '\u3000' || c == '\uFEFF'

/-- Separator characters of the tokenizer: the word-matching regex of
`TitleCaseModule.tokenize` is `([^\s\-—–]+)`, so a character separates
words exactly when it is whitespace, a hyphen-minus, an em-dash or an
en-dash. -/
def isSepChar (c : Char) : Bool :=
  isJsWhitespace c || c == '-' || c == '—' || c == '–'

/-- Token record produced by `TitleCaseModule.tokenize`.  Separator
tokens carry `word = none` and default (false) flags; word tokens carry
`word = some` of their text together with position metadata. -/
structure Token where
  original : List Char
  word : Option (List Char)
  isFirstWord : Bool := false
  isLastWord : Bool := false
  afterColon : Bool := false
deriving Repr, DecidableEq

/-- Accumulating splitter: groups the input into maximal runs of
characters of the same class (word characters versus separator
characters).  `b` is the class of the run currently accumulated in
`acc` (stored reversed); `b = true` means a word run.  This reproduces
the alternation of regex matches and gaps in the `while` loop of
`tokenize`. -/
def splitRunsAux (b : Bool) (acc : List Char) : List Char → List (Bool × List Char)
  | [] => [(b, acc.reverse)]
  | c :: rest =>
    if (!isSepChar c) = b then
      splitRunsAux b (c :: acc) rest
    else
      (b, acc.reverse) :: splitRunsAux (!isSepChar c) [c] rest

/-- Maximal homogeneous runs of a character list, each tagged with
`true` when it is a run of word characters. -/
def splitRuns : List Char → List (Bool × List Char)
  | [] => []
  | c :: rest => splitRunsAux (!isSepChar c) [c] rest

/-- Number of word runs; the source computes it by the pre-scan
`(text.match(regex) || []).length` before assigning `isLastWord`. -/
def countWordRuns (rs : List (Bool × List Char)) : Nat :=
  (rs.filter fun p => p.1).length

/-- Builds the token list from the run list, threading the word index
`wi`, the total word count `total`, and the `previousWasColon` state
`pc` exactly as the `while` loop of `tokenize` does: word runs become
word tokens with position flags, separator runs become plain tokens and
set the colon state when they contain a colon. -/
def mkTokens (total : Nat) : Nat → Bool → List (Bool × List Char) → List Token
  | _, _, [] => []
  | wi, pc, (isW, cs) :: rest =>
    if isW then
      { original := cs, word := some cs, isFirstWord := wi == 0,
        isLastWord := wi == total - 1, afterColon := pc } ::
        mkTokens total (wi + 1) false rest
    else
      { original := cs, word := none } ::
        mkTokens total wi (pc || decide (':' ∈ cs)) rest

/-- `TitleCaseModule.tokenize` for the no-tagger configuration:
split into maximal runs, pre-count the words, then assign metadata. -/
def tokenize (text : List Char) : List Token :=
  mkTokens (countWordRuns (splitRuns text)) 0 false (splitRuns text)

/-- Article list of the source (`this.articles`). -/
def articles : List (List Char) :=
  ["a".data, "an".data, "the".data]

/-- Coordinating conjunctions (`this.coordinatingConjunctions`). -/
def coordinatingConjunctions : List (List Char) :=
  ["and".data, "but".data, "for".data, "nor".data, "or".data, "yet".data, "so".data]

/-- Subordinating conjunctions (`this.subordinatingConjunctions`). -/
def subordinatingConjunctions : List (List Char) :=
  ["as".data, "if".data, "because".data, "when".data, "whenever".data, "while".data,
   "where".data, "whereas".data, "although".data, "though".data, "unless".data,
   "until".data, "since".data, "after".data, "before".data, "that".data,
   "whether".data, "once".data, "lest".data, "provided".data, "supposing".data]

/-- One-letter prepositions (`this.prepositions1`). -/
def prepositions1 : List (List Char) := ["v".data]

/-- Two-letter prepositions (`this.prepositions2`). -/
def prepositions2 : List (List Char) :=
  ["at".data, "by".data, "in".data, "of".data, "on".data, "to".data, "up".data]

/-- Three-letter prepositions (`this.prepositions3`). -/
def prepositions3 : List (List Char) :=
  ["for".data, "off".data, "out".data, "via".data, "per".data, "pro".data,
   "bar".data, "qua".data, "mid".data]

/-- Four-letter prepositions (`this.prepositions4`). -/
def prepositions4 : List (List Char) :=
  ["from".data, "into".data, "unto".data, "with".data, "amid".data, "atop".data,
   "down".data, "like".data, "near".data, "next".data, "over".data, "past".data,
   "plus".data, "sans".data, "save".data, "than".data, "thru".data]

/-- Prepositions of five or more letters (`this.prepositions5Plus`);
duplicates of the source array are kept. -/
def prepositions5Plus : List (List Char) :=
  ["about".data, "above".data, "across".data, "after".data, "against".data,
   "along".data, "among".data, "around".data, "before".data, "behind".data,
   "below".data, "beneath".data, "beside".data, "besides".data, "between".data,
   "beyond".data, "during".data, "except".data, "inside".data, "outside".data,
   "through".data, "throughout".data, "toward".data, "towards".data, "under".data,
   "underneath".data, "unlike".data, "until".data, "within".data, "without".data,
   "aboard".data, "absent".data, "across".data, "according".data, "alongside".data,
   "amidst".data, "amongst".data, "around".data, "aslant".data, "astride".data,
   "barring".data, "beside".data, "besides".data, "betwixt".data, "circa".data,
   "concerning".data, "considering".data, "despite".data, "excluding".data,
   "failing".data, "following".data, "given".data, "including".data,
   "notwithstanding".data, "opposite".data, "pending".data, "regarding".data,
   "respecting".data, "round".data, "saving".data, "touching".data, "versus".data]

/-- NYT always-lowercase words (`this.nytLowercaseWords`). -/
def nytLowercaseWords : List (List Char) :=
  ["a".data, "and".data, "as".data, "at".data, "but".data, "by".data, "en".data,
   "for".data, "if".data, "in".data, "of".data, "on".data, "or".data, "the".data,
   "to".data, "v.".data, "vs.".data, "via".data]

/-- NYT always-capitalize short words (`this.nytCapitalizeWords`). -/
def nytCapitalizeWords : List (List Char) :=
  ["no".data, "nor".data, "not".data, "off".data, "out".data, "so".data, "up".data]

/-- `TitleCaseModule.isPreposition`: union of the five length-grouped
preposition lists. -/
def isPreposition (lowerWord : List Char) : Bool :=
  decide (lowerWord ∈ prepositions1) || decide (lowerWord ∈ prepositions2) ||
  decide (lowerWord ∈ prepositions3) || decide (lowerWord ∈ prepositions4) ||
  decide (lowerWord ∈ prepositions5Plus)

/-- Characterwise model of JavaScript `toLowerCase`.  It agrees with
ECMAScript on every code point below 128 (the A-Z to a-z map), fixes
the sharp s U+00DF, and lowercases the capital sharp s U+1E9E to
U+00DF; characters outside this region are approximated by the
identity, so theorems about case-mapped text carry an explicit
below-128 hypothesis. -/
def jsLowerChar (c : Char) : List Char :=
  if c = 'ẞ' then ['ß'] else [Char.toLower c]

/-- Characterwise model of JavaScript `toUpperCase` on the same region:
the sharp s U+00DF expands to the two characters SS, as in the
ECMAScript special-casing table, a-z map to A-Z, and the capital sharp
s U+1E9E is fixed; characters outside the region are approximated by
the identity. -/
def jsUpperChar (c : Char) : List Char :=
  if c = 'ß' then ['S', 'S'] else [Char.toUpper c]

/-- JavaScript `String.prototype.toLowerCase` on the modelled region:
characterwise mapping with flattening, since a character may lowercase
to a different character. -/
def lowerStr (w : List Char) : List Char := (w.map jsLowerChar).flatten

/-- `TitleCaseModule.capitalize`: the JavaScript expression
charAt(0).toUpperCase() + slice(1).toLowerCase(); the empty word is
returned unchanged.  The first character may expand to two characters
under special casing, as JavaScript does for the sharp s. -/
def capitalize (word : List Char) : List Char :=
  match word with
  | [] => []
  | c :: rest => jsUpperChar c ++ (rest.map jsLowerChar).flatten

/-- `TitleCaseModule.applyPrepositionRules` (reachable only through the
tagger-aware path). -/
def applyPrepositionRules (word lowerWord : List Char) (style : String) : List Char :=
  if style = "AMA" ∨ style = "AP" ∨ style = "APA" then
    if word.length ≤ 3 then lowerWord else capitalize word
  else if style = "Bluebook" ∨ style = "Chicago" ∨ style = "Wikipedia" then
    if word.length ≤ 4 then lowerWord else capitalize word
  else if style = "MLA" then lowerWord
  else if style = "New York Times" then
    if lowerWord ∈ nytLowercaseWords then lowerWord
    else if lowerWord ∈ nytCapitalizeWords then capitalize word
    else if 4 ≤ word.length then capitalize word else lowerWord
  else capitalize word

/-- `TitleCaseModule.applyNLPAwareRules`: consulted only when a
grammatical function was resolved by the tagger; `none` means the rule
declines and the caller falls back to the static heuristics. -/
def applyNLPAwareRules (word lowerWord : List Char) (gf : String)
    (_posTag : Option String) (style : String) : Option (List Char) :=
  if gf = "verb" ∨ gf = "noun" ∨ gf = "adjective" ∨ gf = "adverb" ∨ gf = "pronoun" then
    some (capitalize word)
  else if gf = "article" then some lowerWord
  else if gf = "infinitive" then
    some (if style = "AP" then capitalize word else lowerWord)
  else if gf = "conjunction" then
    if lowerWord ∈ coordinatingConjunctions then
      if style = "Chicago" ∧ (lowerWord = "yet".data ∨ lowerWord = "so".data) then
        some (capitalize word)
      else if style = "New York Times" ∧ (lowerWord = "so".data ∨ lowerWord = "nor".data) then
        some (capitalize word)
      else some lowerWord
    else if lowerWord ∈ subordinatingConjunctions then
      if style = "AMA" ∨ style = "Bluebook" ∨ style = "Chicago" ∨ style = "MLA" ∨
          style = "Wikipedia" then
        if style = "Chicago" ∧ lowerWord = "as".data then some lowerWord
        else some (capitalize word)
      else if (style = "AP" ∨ style = "APA" ∨ style = "New York Times") ∧ word.length ≤ 3 then
        some lowerWord
      else some (capitalize word)
    else none
  else if gf = "preposition" then some (applyPrepositionRules word lowerWord style)
  else none

/-- `TitleCaseModule.applyAMARules`. -/
def applyAMARules (word lowerWord : List Char) : List Char :=
  if lowerWord ∈ articles then lowerWord
  else if lowerWord ∈ coordinatingConjunctions then lowerWord
  else if isPreposition lowerWord ∧ word.length ≤ 3 then lowerWord
  else if lowerWord = "to".data then lowerWord
  else capitalize word

/-- `TitleCaseModule.applyAPRules`. -/
def applyAPRules (word lowerWord : List Char) : List Char :=
  if 4 ≤ word.length then capitalize word
  else if lowerWord ∈ articles then lowerWord
  else if lowerWord ∈ coordinatingConjunctions ∧ word.length ≤ 3 then lowerWord
  else if lowerWord ∈ subordinatingConjunctions ∧ word.length ≤ 3 then lowerWord
  else if isPreposition lowerWord ∧ word.length ≤ 3 ∧ ¬ lowerWord = "to".data then lowerWord
  else capitalize word

/-- `TitleCaseModule.applyAPARules`. -/
def applyAPARules (word lowerWord : List Char) : List Char :=
  if 4 ≤ word.length then capitalize word
  else if lowerWord ∈ articles then lowerWord
  else if lowerWord ∈ coordinatingConjunctions then lowerWord
  else if lowerWord ∈ subordinatingConjunctions ∧ word.length ≤ 3 then lowerWord
  else if isPreposition lowerWord ∧ word.length ≤ 3 then lowerWord
  else capitalize word

/-- `TitleCaseModule.applyBluebookRules`. -/
def applyBluebookRules (word lowerWord : List Char) : List Char :=
  if lowerWord ∈ articles then lowerWord
  else if lowerWord ∈ coordinatingConjunctions then lowerWord
  else if isPreposition lowerWord ∧ word.length ≤ 4 then lowerWord
  else capitalize word

/-- `TitleCaseModule.applyChicagoRules`. -/
def applyChicagoRules (word lowerWord : List Char) : List Char :=
  if lowerWord ∈ articles then lowerWord
  else if lowerWord ∈ (["and".data, "but".data, "for".data, "nor".data, "or".data] :
      List (List Char)) then lowerWord
  else if lowerWord = "as".data then lowerWord
  else if lowerWord = "to".data then lowerWord
  else if isPreposition lowerWord ∧ word.length ≤ 4 then lowerWord
  else capitalize word

/-- `TitleCaseModule.applyMLARules`. -/
def applyMLARules (word lowerWord : List Char) : List Char :=
  if lowerWord ∈ articles then lowerWord
  else if lowerWord ∈ coordinatingConjunctions then lowerWord
  else if isPreposition lowerWord then lowerWord
  else if lowerWord = "to".data then lowerWord
  else capitalize word

/-- `TitleCaseModule.applyNYTRules`. -/
def applyNYTRules (word lowerWord : List Char) : List Char :=
  if 4 ≤ word.length then capitalize word
  else if lowerWord ∈ nytCapitalizeWords then capitalize word
  else if lowerWord ∈ nytLowercaseWords then lowerWord
  else if lowerWord = "v.".data ∨ lowerWord = "vs.".data then lowerWord
  else capitalize word

/-- `TitleCaseModule.applyWikipediaRules`. -/
def applyWikipediaRules (word lowerWord : List Char) : List Char :=
  if lowerWord ∈ articles then lowerWord
  else if lowerWord ∈ coordinatingConjunctions then lowerWord
  else if isPreposition lowerWord ∧ word.length ≤ 4 then lowerWord
  else if lowerWord = "to".data then lowerWord
  else capitalize word

/-- Per-segment recasing of a hyphenated compound, i.e. the body of the
`map` callback inside `TitleCaseModule.handleHyphenatedWord`. -/
def hyphenPart (style : String) (isFirst : Bool) (index : Nat) (part : List Char) : List Char :=
  let lowerPart := lowerStr part
  if index = 0 ∧ isFirst then capitalize part
  else if style = "AMA" then capitalize part
  else if style = "Chicago" then
    if index = 0 then capitalize part
    else if lowerPart ∈ articles then lowerPart
    else if lowerPart ∈ coordinatingConjunctions then lowerPart
    else if isPreposition lowerPart then lowerPart
    else capitalize part
  else if style = "APA" then capitalize part
  else if style = "MLA" then
    if lowerPart ∈ articles then lowerPart
    else if lowerPart ∈ coordinatingConjunctions then lowerPart
    else if isPreposition lowerPart then lowerPart
    else capitalize part
  else capitalize part

/-- `TitleCaseModule.handleHyphenatedWord`: split on hyphens, recase
each segment, rejoin with hyphens.  The source takes an `isLast`
argument but never reads it. -/
def handleHyphenatedWord (word : List Char) (isFirst _isLast : Bool)
    (style : String) : List Char :=
  List.intercalate ['-']
    (((word.splitOn '-').enum).map fun p => hyphenPart style isFirst p.1 p.2)

/-- `TitleCaseModule.applyStyleRules`: hyphen check, forced first word,
style-dependent forced last word, APA colon rule, tagger-aware rules
when a grammatical function is present, then the per-style static
heuristics with default plain capitalization for unknown styles. -/
def applyStyleRules (word lowerWord : List Char) (isFirst isLast afterColon : Bool)
    (style : String) (gf : Option String) (posTag : Option String) : List Char :=
  if '-' ∈ word then handleHyphenatedWord word isFirst isLast style
  else if isFirst then capitalize word
  else if isLast ∧ ¬ (style = "AMA" ∨ style = "APA" ∨ style = "Bluebook") then
    capitalize word
  else if afterColon ∧ style = "APA" then capitalize word
  else
    match (match gf with
           | some g => applyNLPAwareRules word lowerWord g posTag style
           | none => none) with
    | some r => r
    | none =>
      if style = "AMA" then applyAMARules word lowerWord
      else if style = "AP" then applyAPRules word lowerWord
      else if style = "APA" then applyAPARules word lowerWord
      else if style = "Bluebook" then applyBluebookRules word lowerWord
      else if style = "Chicago" then applyChicagoRules word lowerWord
      else if style = "MLA" then applyMLARules word lowerWord
      else if style = "New York Times" then applyNYTRules word lowerWord
      else if style = "Wikipedia" then applyWikipediaRules word lowerWord
      else capitalize word

/-- The body of the per-token loop of `TitleCaseModule.toTitleCase`:
separator tokens pass through verbatim, word tokens are recased by
`applyStyleRules` (with no grammatical information in the no-tagger
configuration). -/
def renderToken (style : String) (t : Token) : List Char :=
  match t.word with
  | none => t.original
  | some w =>
    applyStyleRules w (lowerStr w) t.isFirstWord t.isLastWord t.afterColon style none none

/-- `TitleCaseModule.toTitleCase` in the no-tagger configuration:
tokenize, recase each token, join. -/
def toTitleCase (text : List Char) (style : String) : List Char :=
  ((tokenize text).map (renderToken style)).flatten

/-- Head-boolean constraint used to state that consecutive runs alternate
between word runs and separator runs. -/
def headBoolNe (b : Bool) : List (Bool × List Char) → Prop
  | [] => True
  | (b2, _) :: _ => ¬ b2 = b

/-- Well-formedness of a run list as produced by `splitRuns`: every run is
nonempty, homogeneous for its class, and adjacent runs alternate. -/
def runsOk : List (Bool × List Char) → Prop
  | [] => True
  | (b, r) :: rest =>
      ¬ r = [] ∧ (∀ c ∈ r, (!isSepChar c) = b) ∧ headBoolNe b rest ∧ runsOk rest

/-- The run list induced by rendering a token list: separator tokens
contribute separator runs verbatim, word tokens contribute their recased
text as word runs. -/
def runsOfTokens (s : String) (ts : List Token) : List (Bool × List Char) :=
  ts.map fun t => (t.word.isSome, renderToken s t)

/-- Two characters are related when the second is the first, its uppercase
image, or its lowercase image: equality of words up to letter casing. -/
def charCaseRel (c d : Char) : Prop :=
  d = c ∨ d = Char.toUpper c ∨ d = Char.toLower c

theorem char_toNat_inj {c d : Char} (h : c.toNat = d.toNat) : c = d :=
  Char.eq_of_val_eq (UInt32.eq_of_toBitVec_eq (BitVec.eq_of_toNat_eq h))

theorem toNat_ofNat_lt {n : Nat} (h : n < 55296) : (Char.ofNat n).toNat = n := by
  rw [Char.ofNat, dif_pos (Or.inl h)]
  rfl

theorem toLower_toNat (c : Char) :
    (Char.toLower c).toNat = if 65 ≤ c.toNat ∧ c.toNat ≤ 90 then c.toNat + 32 else c.toNat := by
  rw [Char.toLower]
  split
  · next h => rw [toNat_ofNat_lt (by omega)]
  · rfl

theorem toUpper_toNat (c : Char) :
    (Char.toUpper c).toNat = if 97 ≤ c.toNat ∧ c.toNat ≤ 122 then c.toNat - 32 else c.toNat := by
  rw [Char.toUpper]
  split
  · next h => rw [toNat_ofNat_lt (by omega)]
  · rfl

theorem toLower_toLower (c : Char) : Char.toLower (Char.toLower c) = Char.toLower c := by
  apply char_toNat_inj
  rw [toLower_toNat, toLower_toNat]
  split_ifs <;> omega

theorem toLower_toUpper (c : Char) : Char.toLower (Char.toUpper c) = Char.toLower c := by
  apply char_toNat_inj
  rw [toLower_toNat, toLower_toNat, toUpper_toNat]
  split_ifs <;> omega

theorem toUpper_toUpper (c : Char) : Char.toUpper (Char.toUpper c) = Char.toUpper c := by
  apply char_toNat_inj
  rw [toUpper_toNat, toUpper_toNat]
  split_ifs <;> omega

theorem toUpper_congr_of_toLower {c d : Char} (h : Char.toLower c = Char.toLower d) :
    Char.toUpper c = Char.toUpper d := by
  have hn : (Char.toLower c).toNat = (Char.toLower d).toNat := by rw [h]
  rw [toLower_toNat, toLower_toNat] at hn
  apply char_toNat_inj
  rw [toUpper_toNat, toUpper_toNat]
  split_ifs at hn ⊢ <;> omega

theorem isSepChar_toNat {c : Char} (h : isSepChar c = true) :
    c.toNat < 65 ∨ (90 < c.toNat ∧ c.toNat < 97) ∨ 122 < c.toNat := by
  simp only [isSepChar, isJsWhitespace, Bool.or_eq_true, beq_iff_eq] at h
  casesm* _ ∨ _ <;> subst_vars <;> decide

theorem toLower_eq_self {c : Char} (h : ¬ (65 ≤ c.toNat ∧ c.toNat ≤ 90)) :
    Char.toLower c = c :=
  char_toNat_inj (by rw [toLower_toNat, if_neg h])

theorem toUpper_eq_self {c : Char} (h : ¬ (97 ≤ c.toNat ∧ c.toNat ≤ 122)) :
    Char.toUpper c = c :=
  char_toNat_inj (by rw [toUpper_toNat, if_neg h])

theorem notSep_of_letter {c : Char}
    (h : (65 ≤ c.toNat ∧ c.toNat ≤ 90) ∨ (97 ≤ c.toNat ∧ c.toNat ≤ 122)) :
    isSepChar c = false := by
  cases hs : isSepChar c
  · rfl
  · exact absurd (isSepChar_toNat hs) (by omega)

theorem isSepChar_toLower (c : Char) : isSepChar (Char.toLower c) = isSepChar c := by
  by_cases hc : 65 ≤ c.toNat ∧ c.toNat ≤ 90
  · rw [notSep_of_letter (Or.inl hc), notSep_of_letter]
    right
    rw [toLower_toNat, if_pos hc]
    omega
  · rw [toLower_eq_self hc]

theorem isSepChar_toUpper (c : Char) : isSepChar (Char.toUpper c) = isSepChar c := by
  by_cases hc : 97 ≤ c.toNat ∧ c.toNat ≤ 122
  · rw [notSep_of_letter (Or.inr hc), notSep_of_letter]
    left
    rw [toUpper_toNat, if_pos hc]
    omega
  · rw [toUpper_eq_self hc]

theorem toLower_eq_iff_nonletter {c d : Char}
    (h1 : ¬ (65 ≤ d.toNat ∧ d.toNat ≤ 90)) (h2 : ¬ (97 ≤ d.toNat ∧ d.toNat ≤ 122)) :
    Char.toLower c = d ↔ c = d := by
  constructor
  · intro he
    by_cases hc : 65 ≤ c.toNat ∧ c.toNat ≤ 90
    · exfalso
      have hd : d.toNat = c.toNat + 32 := by
        rw [← he, toLower_toNat, if_pos hc]
      omega
    · rwa [toLower_eq_self hc] at he
  · rintro rfl
    exact toLower_eq_self h1

theorem splitRunsAux_flatten (cs : List Char) : ∀ b acc,
    ((splitRunsAux b acc cs).map Prod.snd).flatten = acc.reverse ++ cs := by
  induction cs with
  | nil => intro b acc; simp [splitRunsAux]
  | cons c rest ih =>
    intro b acc
    rw [splitRunsAux]
    split
    · rw [ih]; simp
    · simp only [List.map_cons, List.flatten_cons, ih]
      simp

theorem splitRuns_flatten (cs : List Char) :
    ((splitRuns cs).map Prod.snd).flatten = cs := by
  cases cs with
  | nil => rfl
  | cons c rest => rw [splitRuns, splitRunsAux_flatten]; rfl

theorem splitRunsAux_head (cs : List Char) : ∀ b acc,
    ∃ r tl, splitRunsAux b acc cs = (b, r) :: tl := by
  induction cs with
  | nil => intro b acc; exact ⟨acc.reverse, [], rfl⟩
  | cons c rest ih =>
    intro b acc
    rw [splitRunsAux]
    split
    · exact ih b (c :: acc)
    · exact ⟨acc.reverse, _, rfl⟩

theorem splitRunsAux_ok (cs : List Char) : ∀ b acc, ¬ acc = [] →
    (∀ c ∈ acc, (!isSepChar c) = b) → runsOk (splitRunsAux b acc cs) := by
  induction cs with
  | nil =>
    intro b acc hacc hhom
    refine ⟨by simpa using hacc, ?_, trivial, trivial⟩
    intro c hc
    exact hhom c (List.mem_reverse.mp hc)
  | cons c rest ih =>
    intro b acc hacc hhom
    rw [splitRunsAux]
    split
    · next hcl =>
      exact ih b (c :: acc) (by simp) (by
        intro d hd
        rcases List.mem_cons.mp hd with rfl | hd
        · exact hcl
        · exact hhom d hd)
    · next hcl =>
      refine ⟨by simpa using hacc, ?_, ?_, ?_⟩
      · intro d hd
        exact hhom d (List.mem_reverse.mp hd)
      · obtain ⟨r, tl, he⟩ := splitRunsAux_head rest (!isSepChar c) [c]
        rw [he]
        exact fun hb => hcl hb
      · exact ih (!isSepChar c) [c] (by simp) (by simp)

theorem splitRuns_ok (cs : List Char) : runsOk (splitRuns cs) := by
  cases cs with
  | nil => trivial
  | cons c rest => exact splitRunsAux_ok rest (!isSepChar c) [c] (by simp) (by simp)

theorem splitRunsAux_homog_nil (run : List Char) : ∀ b acc,
    (∀ c ∈ run, (!isSepChar c) = b) →
    splitRunsAux b acc run = [(b, acc.reverse ++ run)] := by
  induction run with
  | nil => intro b acc _; simp [splitRunsAux]
  | cons c rest ih =>
    intro b acc hrun
    rw [splitRunsAux, if_pos (hrun c (by simp)), ih b (c :: acc)
      (fun d hd => hrun d (by simp [hd]))]
    simp

theorem splitRunsAux_homog_cons (run : List Char) : ∀ b acc c rest,
    (∀ d ∈ run, (!isSepChar d) = b) → ¬ (!isSepChar c) = b →
    splitRunsAux b acc (run ++ c :: rest) =
      (b, acc.reverse ++ run) :: splitRunsAux (!isSepChar c) [c] rest := by
  induction run with
  | nil =>
    intro b acc c rest _ hc
    rw [List.nil_append, splitRunsAux, if_neg hc]
    simp
  | cons d run2 ih =>
    intro b acc c rest hrun hc
    rw [List.cons_append, splitRunsAux, if_pos (hrun d (by simp)),
      ih b (d :: acc) c rest (fun e he => hrun e (by simp [he])) hc]
    simp

theorem splitRuns_of_runsOk (rs : List (Bool × List Char)) (h : runsOk rs) :
    splitRuns ((rs.map Prod.snd).flatten) = rs := by
  induction rs with
  | nil => rfl
  | cons p tl ih =>
    obtain ⟨b, r⟩ := p
    obtain ⟨hne, hhom, hhead, htl⟩ := h
    have ih2 := ih htl
    cases r with
    | nil => exact absurd rfl hne
    | cons c r2 =>
      simp only [List.map_cons, List.flatten_cons, List.cons_append]
      rw [splitRuns, hhom c (by simp)]
      cases tl with
      | nil =>
        rw [List.map_nil, List.flatten_nil, List.append_nil,
          splitRunsAux_homog_nil r2 b [c] (fun d hd => hhom d (by simp [hd]))]
        rfl
      | cons q tl2 =>
        obtain ⟨b2, r3⟩ := q
        obtain ⟨hne2, hhom2, _, _⟩ := htl
        cases r3 with
        | nil => exact absurd rfl hne2
        | cons e r4 =>
          simp only [List.map_cons, List.flatten_cons, List.cons_append] at ih2 ⊢
          rw [splitRuns] at ih2
          have hb2 : (!isSepChar e) = b2 := hhom2 e (by simp)
          have hne_b : ¬ (!isSepChar e) = b := by
            rw [hb2]
            exact hhead
          rw [splitRunsAux_homog_cons r2 b [c] e (r4 ++ (tl2.map Prod.snd).flatten)
            (fun d hd => hhom d (by simp [hd])) hne_b, ih2]
          simp

theorem applyAMARules_shape (w lw : List Char) :
    applyAMARules w lw = lw ∨ applyAMARules w lw = capitalize w := by
  rw [applyAMARules]; split_ifs <;> simp

theorem applyAPRules_shape (w lw : List Char) :
    applyAPRules w lw = lw ∨ applyAPRules w lw = capitalize w := by
  rw [applyAPRules]; split_ifs <;> simp

theorem applyAPARules_shape (w lw : List Char) :
    applyAPARules w lw = lw ∨ applyAPARules w lw = capitalize w := by
  rw [applyAPARules]; split_ifs <;> simp

theorem applyBluebookRules_shape (w lw : List Char) :
    applyBluebookRules w lw = lw ∨ applyBluebookRules w lw = capitalize w := by
  rw [applyBluebookRules]; split_ifs <;> simp

theorem applyChicagoRules_shape (w lw : List Char) :
    applyChicagoRules w lw = lw ∨ applyChicagoRules w lw = capitalize w := by
  rw [applyChicagoRules]; split_ifs <;> simp

theorem applyMLARules_shape (w lw : List Char) :
    applyMLARules w lw = lw ∨ applyMLARules w lw = capitalize w := by
  rw [applyMLARules]; split_ifs <;> simp

theorem applyNYTRules_shape (w lw : List Char) :
    applyNYTRules w lw = lw ∨ applyNYTRules w lw = capitalize w := by
  rw [applyNYTRules]; split_ifs <;> simp

theorem applyWikipediaRules_shape (w lw : List Char) :
    applyWikipediaRules w lw = lw ∨ applyWikipediaRules w lw = capitalize w := by
  rw [applyWikipediaRules]; split_ifs <;> simp

theorem applyStyleRules_none (w lw : List Char) (f l a : Bool) (s : String) :
    applyStyleRules w lw f l a s none none =
      if '-' ∈ w then handleHyphenatedWord w f l s
      else if f then capitalize w
      else if l ∧ ¬ (s = "AMA" ∨ s = "APA" ∨ s = "Bluebook") then capitalize w
      else if a ∧ s = "APA" then capitalize w
      else if s = "AMA" then applyAMARules w lw
      else if s = "AP" then applyAPRules w lw
      else if s = "APA" then applyAPARules w lw
      else if s = "Bluebook" then applyBluebookRules w lw
      else if s = "Chicago" then applyChicagoRules w lw
      else if s = "MLA" then applyMLARules w lw
      else if s = "New York Times" then applyNYTRules w lw
      else if s = "Wikipedia" then applyWikipediaRules w lw
      else capitalize w := rfl

theorem applyStyleRules_shape (w lw : List Char) (f l a : Bool) (s : String)
    (hh : ¬ '-' ∈ w) :
    applyStyleRules w lw f l a s none none = lw ∨
    applyStyleRules w lw f l a s none none = capitalize w := by
  rw [applyStyleRules_none, if_neg hh]
  cases f with
  | true => right; rw [if_pos rfl]
  | false =>
    rw [if_neg (by simp)]
    by_cases h2 : (l = true) ∧ ¬ (s = "AMA" ∨ s = "APA" ∨ s = "Bluebook")
    · rw [if_pos h2]; right; rfl
    · rw [if_neg h2]
      by_cases h3 : (a = true) ∧ s = "APA"
      · rw [if_pos h3]; right; rfl
      · rw [if_neg h3]
        split_ifs
        all_goals first
          | exact applyAMARules_shape w lw
          | exact applyAPRules_shape w lw
          | exact applyAPARules_shape w lw
          | exact applyBluebookRules_shape w lw
          | exact applyChicagoRules_shape w lw
          | exact applyMLARules_shape w lw
          | exact applyNYTRules_shape w lw
          | exact applyWikipediaRules_shape w lw
          | (right; rfl)

theorem jsLowerChar_ascii {c : Char} (h : c.toNat < 128) :
    jsLowerChar c = [Char.toLower c] := by
  rw [jsLowerChar, if_neg]
  intro he
  rw [he] at h
  exact absurd h (by decide)

theorem jsUpperChar_ascii {c : Char} (h : c.toNat < 128) :
    jsUpperChar c = [Char.toUpper c] := by
  rw [jsUpperChar, if_neg]
  intro he
  rw [he] at h
  exact absurd h (by decide)

theorem jsLowerChar_length (c : Char) : (jsLowerChar c).length = 1 := by
  rw [jsLowerChar]
  split <;> rfl

theorem lowerStr_cons (c : Char) (t : List Char) :
    lowerStr (c :: t) = jsLowerChar c ++ lowerStr t := by
  rw [lowerStr, List.map_cons, List.flatten_cons, lowerStr]

theorem lowerStr_ascii {w : List Char} (h : ∀ c ∈ w, c.toNat < 128) :
    lowerStr w = w.map Char.toLower := by
  induction w with
  | nil => rfl
  | cons c t ih =>
    rw [lowerStr_cons, jsLowerChar_ascii (h c (by simp)), List.map_cons,
      ih (fun d hd => h d (by simp [hd]))]
    rfl

theorem capitalize_ascii {c : Char} {rest : List Char} (hc : c.toNat < 128)
    (hr : ∀ d ∈ rest, d.toNat < 128) :
    capitalize (c :: rest) = Char.toUpper c :: rest.map Char.toLower := by
  show jsUpperChar c ++ (rest.map jsLowerChar).flatten = _
  rw [jsUpperChar_ascii hc, show (rest.map jsLowerChar).flatten = lowerStr rest from rfl,
    lowerStr_ascii hr]
  rfl

theorem toNat_toLower_lt {c : Char} (h : c.toNat < 128) : (Char.toLower c).toNat < 128 := by
  rw [toLower_toNat]
  split <;> omega

theorem toNat_toUpper_lt {c : Char} (h : c.toNat < 128) : (Char.toUpper c).toNat < 128 := by
  rw [toUpper_toNat]
  split <;> omega

theorem mapLower_ascii {w : List Char} (h : ∀ c ∈ w, c.toNat < 128) :
    ∀ c ∈ w.map Char.toLower, c.toNat < 128 := by
  intro c hc
  obtain ⟨d, hd, rfl⟩ := List.mem_map.mp hc
  exact toNat_toLower_lt (h d hd)

theorem lowerStr_length (w : List Char) : (lowerStr w).length = w.length := by
  induction w with
  | nil => rfl
  | cons c t ih =>
    rw [lowerStr_cons, List.length_append, jsLowerChar_length, ih, List.length_cons]
    omega

theorem mapLower_idem (w : List Char) :
    (w.map Char.toLower).map Char.toLower = w.map Char.toLower := by
  rw [List.map_map]
  exact List.map_congr_left fun c _ => toLower_toLower c

theorem lowerStr_lowerStr {w : List Char} (h : ∀ c ∈ w, c.toNat < 128) :
    lowerStr (lowerStr w) = lowerStr w := by
  rw [lowerStr_ascii h, lowerStr_ascii (mapLower_ascii h), mapLower_idem]

theorem lowerStr_capitalize {w : List Char} (h : ∀ c ∈ w, c.toNat < 128) :
    lowerStr (capitalize w) = lowerStr w := by
  cases w with
  | nil => rfl
  | cons c t =>
    have hc : c.toNat < 128 := h c (by simp)
    have ht : ∀ d ∈ t, d.toNat < 128 := fun d hd => h d (by simp [hd])
    rw [capitalize_ascii hc ht, lowerStr_ascii h,
      lowerStr_ascii (by
        intro d hd
        rcases List.mem_cons.mp hd with rfl | hd2
        · exact toNat_toUpper_lt hc
        · exact mapLower_ascii ht d hd2),
      List.map_cons, List.map_cons, toLower_toUpper, mapLower_idem]

theorem capitalize_length {w : List Char} (h : ∀ c ∈ w, c.toNat < 128) :
    (capitalize w).length = w.length := by
  cases w with
  | nil => rfl
  | cons c t =>
    rw [capitalize_ascii (h c (by simp)) (fun d hd => h d (by simp [hd]))]
    simp

theorem capitalize_congr {w1 w2 : List Char} (h1 : ∀ c ∈ w1, c.toNat < 128)
    (h2 : ∀ c ∈ w2, c.toNat < 128) (h : lowerStr w1 = lowerStr w2) :
    capitalize w1 = capitalize w2 := by
  rw [lowerStr_ascii h1, lowerStr_ascii h2] at h
  cases w1 with
  | nil =>
    cases w2 with
    | nil => rfl
    | cons c t => exact absurd h (by simp)
  | cons c1 t1 =>
    cases w2 with
    | nil => exact absurd h (by simp)
    | cons c2 t2 =>
      simp only [List.map_cons, List.cons.injEq] at h
      rw [capitalize_ascii (h1 c1 (by simp)) (fun d hd => h1 d (by simp [hd])),
        capitalize_ascii (h2 c2 (by simp)) (fun d hd => h2 d (by simp [hd]))]
      rw [toUpper_congr_of_toLower h.1, h.2]

theorem length_congr_of_lower {w1 w2 : List Char} (h : lowerStr w1 = lowerStr w2) :
    w1.length = w2.length := by
  have h2 := congrArg List.length h
  rw [lowerStr_length, lowerStr_length] at h2
  exact h2

theorem applyAMARules_congr {w1 w2 : List Char} (lw : List Char)
    (hlen : w1.length = w2.length) (hcap : capitalize w1 = capitalize w2) :
    applyAMARules w1 lw = applyAMARules w2 lw := by
  simp only [applyAMARules]
  rw [hlen, hcap]

theorem applyAPRules_congr {w1 w2 : List Char} (lw : List Char)
    (hlen : w1.length = w2.length) (hcap : capitalize w1 = capitalize w2) :
    applyAPRules w1 lw = applyAPRules w2 lw := by
  simp only [applyAPRules]
  rw [hlen, hcap]

theorem applyAPARules_congr {w1 w2 : List Char} (lw : List Char)
    (hlen : w1.length = w2.length) (hcap : capitalize w1 = capitalize w2) :
    applyAPARules w1 lw = applyAPARules w2 lw := by
  simp only [applyAPARules]
  rw [hlen, hcap]

theorem applyBluebookRules_congr {w1 w2 : List Char} (lw : List Char)
    (hlen : w1.length = w2.length) (hcap : capitalize w1 = capitalize w2) :
    applyBluebookRules w1 lw = applyBluebookRules w2 lw := by
  simp only [applyBluebookRules]
  rw [hlen, hcap]

theorem applyChicagoRules_congr {w1 w2 : List Char} (lw : List Char)
    (hlen : w1.length = w2.length) (hcap : capitalize w1 = capitalize w2) :
    applyChicagoRules w1 lw = applyChicagoRules w2 lw := by
  simp only [applyChicagoRules]
  rw [hlen, hcap]

theorem applyMLARules_congr {w1 w2 : List Char} (lw : List Char)
    (_hlen : w1.length = w2.length) (hcap : capitalize w1 = capitalize w2) :
    applyMLARules w1 lw = applyMLARules w2 lw := by
  simp only [applyMLARules]
  rw [hcap]

theorem applyNYTRules_congr {w1 w2 : List Char} (lw : List Char)
    (hlen : w1.length = w2.length) (hcap : capitalize w1 = capitalize w2) :
    applyNYTRules w1 lw = applyNYTRules w2 lw := by
  simp only [applyNYTRules]
  rw [hlen, hcap]

theorem applyWikipediaRules_congr {w1 w2 : List Char} (lw : List Char)
    (hlen : w1.length = w2.length) (hcap : capitalize w1 = capitalize w2) :
    applyWikipediaRules w1 lw = applyWikipediaRules w2 lw := by
  simp only [applyWikipediaRules]
  rw [hlen, hcap]

theorem applyStyleRules_congr {w1 w2 : List Char} (lw : List Char) (f l a : Bool)
    (s : String) (hlow : lowerStr w1 = lowerStr w2)
    (hA1 : ∀ c ∈ w1, c.toNat < 128) (hA2 : ∀ c ∈ w2, c.toNat < 128)
    (h1 : ¬ '-' ∈ w1) (h2 : ¬ '-' ∈ w2) :
    applyStyleRules w1 lw f l a s none none =
    applyStyleRules w2 lw f l a s none none := by
  have hlen := length_congr_of_lower hlow
  have hcap := capitalize_congr hA1 hA2 hlow
  rw [applyStyleRules_none, applyStyleRules_none, if_neg h1, if_neg h2, hcap,
    applyAMARules_congr lw hlen hcap, applyAPRules_congr lw hlen hcap,
    applyAPARules_congr lw hlen hcap, applyBluebookRules_congr lw hlen hcap,
    applyChicagoRules_congr lw hlen hcap, applyMLARules_congr lw hlen hcap,
    applyNYTRules_congr lw hlen hcap, applyWikipediaRules_congr lw hlen hcap]

theorem notMem_hyphen {w : List Char} (hsf : ∀ c ∈ w, isSepChar c = false) :
    ¬ '-' ∈ w := fun hm => absurd (hsf _ hm) (by decide)

theorem lowerStr_applyStyleRules {w : List Char} (f l a : Bool) (s : String)
    (hh : ¬ '-' ∈ w) (hA : ∀ c ∈ w, c.toNat < 128) :
    lowerStr (applyStyleRules w (lowerStr w) f l a s none none) = lowerStr w := by
  rcases applyStyleRules_shape w (lowerStr w) f l a s hh with he | he <;> rw [he]
  · exact lowerStr_lowerStr hA
  · exact lowerStr_capitalize hA

theorem length_applyStyleRules {w : List Char} (lw : List Char) (f l a : Bool) (s : String)
    (hh : ¬ '-' ∈ w) (hlw : lw.length = w.length) (hA : ∀ c ∈ w, c.toNat < 128) :
    (applyStyleRules w lw f l a s none none).length = w.length := by
  rcases applyStyleRules_shape w lw f l a s hh with he | he <;> rw [he]
  · exact hlw
  · exact capitalize_length hA

theorem sepFree_applyStyleRules {w : List Char} (f l a : Bool) (s : String)
    (hsf : ∀ c ∈ w, isSepChar c = false) (hA : ∀ c ∈ w, c.toNat < 128) :
    ∀ c ∈ applyStyleRules w (lowerStr w) f l a s none none, isSepChar c = false := by
  have hh := notMem_hyphen hsf
  rcases applyStyleRules_shape w (lowerStr w) f l a s hh with he | he <;> rw [he]
  · rw [lowerStr_ascii hA]
    intro c hc
    obtain ⟨d, hd, rfl⟩ := List.mem_map.mp hc
    rw [isSepChar_toLower]
    exact hsf d hd
  · cases w with
    | nil => intro c hc; simp [capitalize] at hc
    | cons c0 t =>
      rw [capitalize_ascii (hA c0 (by simp)) (fun d hd => hA d (by simp [hd]))]
      intro c hc
      rcases List.mem_cons.mp hc with rfl | hc
      · rw [isSepChar_toUpper]
        exact hsf c0 (by simp)
      · obtain ⟨d, hd, rfl⟩ := List.mem_map.mp hc
        rw [isSepChar_toLower]
        exact hsf d (by simp [hd])

theorem ascii_applyStyleRules {w : List Char} (f l a : Bool) (s : String)
    (hh : ¬ '-' ∈ w) (hA : ∀ c ∈ w, c.toNat < 128) :
    ∀ c ∈ applyStyleRules w (lowerStr w) f l a s none none, c.toNat < 128 := by
  rcases applyStyleRules_shape w (lowerStr w) f l a s hh with he | he <;> rw [he]
  · rw [lowerStr_ascii hA]
    exact mapLower_ascii hA
  · cases w with
    | nil => intro c hc; simp [capitalize] at hc
    | cons c0 t =>
      rw [capitalize_ascii (hA c0 (by simp)) (fun d hd => hA d (by simp [hd]))]
      intro c hc
      rcases List.mem_cons.mp hc with rfl | hc
      · exact toNat_toUpper_lt (hA c0 (by simp))
      · exact mapLower_ascii (fun d hd => hA d (by simp [hd])) c hc

theorem runsOfTokens_snd (s : String) (ts : List Token) :
    (runsOfTokens s ts).map Prod.snd = ts.map (renderToken s) := by
  simp [runsOfTokens, List.map_map]

theorem runsOfTokens_mkTokens_fst (s : String) (tot : Nat) (rs : List (Bool × List Char)) :
    ∀ wi pc, (runsOfTokens s (mkTokens tot wi pc rs)).map Prod.fst = rs.map Prod.fst := by
  induction rs with
  | nil => intro wi pc; rfl
  | cons p rest ih =>
    intro wi pc
    obtain ⟨isW, cs⟩ := p
    cases isW with
    | true =>
      rw [mkTokens, if_pos rfl]
      simpa [runsOfTokens] using ih (wi + 1) false
    | false =>
      rw [mkTokens, if_neg (by simp)]
      simpa [runsOfTokens] using ih wi (pc || decide (':' ∈ cs))

theorem headBoolNe_of_fst_eq {b : Bool} {xs ys : List (Bool × List Char)}
    (h : xs.map Prod.fst = ys.map Prod.fst) (hx : headBoolNe b xs) : headBoolNe b ys := by
  cases xs with
  | nil =>
    cases ys with
    | nil => trivial
    | cons q t => simp at h
  | cons p t =>
    cases ys with
    | nil => trivial
    | cons q t2 =>
      obtain ⟨b1, r1⟩ := p
      obtain ⟨b2, r2⟩ := q
      simp only [List.map_cons, List.cons.injEq] at h
      exact h.1 ▸ hx

theorem runsOk_runsOfTokens (s : String) (tot : Nat) (rs : List (Bool × List Char)) :
    ∀ wi pc, runsOk rs → (∀ p ∈ rs, ∀ c ∈ p.2, c.toNat < 128) →
    runsOk (runsOfTokens s (mkTokens tot wi pc rs)) := by
  induction rs with
  | nil => intro wi pc _ _; trivial
  | cons p rest ih =>
    intro wi pc h hA
    obtain ⟨isW, cs⟩ := p
    obtain ⟨hne, hhom, hhead, hrest⟩ := h
    have hArest : ∀ p ∈ rest, ∀ c ∈ p.2, c.toNat < 128 :=
      fun p hp => hA p (List.mem_cons_of_mem _ hp)
    have hAcs : ∀ c ∈ cs, c.toNat < 128 := hA (isW, cs) (by simp)
    cases isW with
    | true =>
      rw [mkTokens, if_pos rfl]
      have hsf : ∀ c ∈ cs, isSepChar c = false := by
        intro c hc
        have := hhom c hc
        simpa using this
      refine ⟨?_, ?_, ?_, ih (wi + 1) false hrest hArest⟩
      · have hlen : (renderToken s
            { original := cs, word := some cs, isFirstWord := wi == 0,
              isLastWord := wi == tot - 1, afterColon := pc }).length = cs.length := by
          exact length_applyStyleRules (lowerStr cs) _ _ _ s (notMem_hyphen hsf)
            (lowerStr_length cs) hAcs
        intro hnil
        rw [hnil] at hlen
        exact hne (List.eq_nil_of_length_eq_zero hlen.symm)
      · intro c hc
        have := sepFree_applyStyleRules (w := cs) (wi == 0) (wi == tot - 1) pc s hsf hAcs c hc
        simp [this]
      · exact headBoolNe_of_fst_eq (runsOfTokens_mkTokens_fst s tot rest (wi + 1) false).symm hhead
    | false =>
      rw [mkTokens, if_neg (by simp)]
      refine ⟨hne, hhom, ?_, ih wi (pc || decide (':' ∈ cs)) hrest hArest⟩
      exact headBoolNe_of_fst_eq
        (runsOfTokens_mkTokens_fst s tot rest wi (pc || decide (':' ∈ cs))).symm hhead

theorem countWordRuns_eq_of_fst_eq {xs ys : List (Bool × List Char)}
    (h : xs.map Prod.fst = ys.map Prod.fst) : countWordRuns xs = countWordRuns ys := by
  induction xs generalizing ys with
  | nil =>
    cases ys with
    | nil => rfl
    | cons q t => simp at h
  | cons p t ih =>
    cases ys with
    | nil => simp at h
    | cons q t2 =>
      simp only [List.map_cons, List.cons.injEq] at h
      rw [countWordRuns, countWordRuns, List.filter, List.filter]
      rw [show q.1 = p.1 from h.1.symm]
      cases hp : p.1 <;> simp [hp] <;> exact ih h.2

theorem mkTokens_render_pass2 (s : String) (tot : Nat) (rs : List (Bool × List Char)) :
    ∀ wi pc, runsOk rs → (∀ p ∈ rs, ∀ c ∈ p.2, c.toNat < 128) →
    (mkTokens tot wi pc (runsOfTokens s (mkTokens tot wi pc rs))).map (renderToken s)
      = (runsOfTokens s (mkTokens tot wi pc rs)).map Prod.snd := by
  induction rs with
  | nil => intro wi pc _ _; rfl
  | cons p rest ih =>
    intro wi pc h hA
    obtain ⟨isW, cs⟩ := p
    obtain ⟨hne, hhom, hhead, hrest⟩ := h
    have hArest : ∀ p ∈ rest, ∀ c ∈ p.2, c.toNat < 128 :=
      fun p hp => hA p (List.mem_cons_of_mem _ hp)
    have hAcs : ∀ c ∈ cs, c.toNat < 128 := hA (isW, cs) (by simp)
    cases isW with
    | true =>
      have hsf : ∀ c ∈ cs, isSepChar c = false := by
        intro c hc
        have := hhom c hc
        simpa using this
      have hh := notMem_hyphen hsf
      rw [mkTokens, if_pos rfl]
      have hexp : runsOfTokens s
          ({ original := cs, word := some cs, isFirstWord := wi == 0,
             isLastWord := wi == tot - 1, afterColon := pc } ::
            mkTokens tot (wi + 1) false rest) =
          (true, applyStyleRules cs (lowerStr cs) (wi == 0) (wi == tot - 1) pc s none none) ::
            runsOfTokens s (mkTokens tot (wi + 1) false rest) := rfl
      rw [hexp, mkTokens, if_pos rfl]
      set R := applyStyleRules cs (lowerStr cs) (wi == 0) (wi == tot - 1) pc s none none with hR
      have hSR : ∀ c ∈ R, isSepChar c = false :=
        sepFree_applyStyleRules (wi == 0) (wi == tot - 1) pc s hsf hAcs
      have hAR : ∀ c ∈ R, c.toNat < 128 :=
        ascii_applyStyleRules (wi == 0) (wi == tot - 1) pc s hh hAcs
      have hhR := notMem_hyphen hSR
      have hlowR : lowerStr R = lowerStr cs :=
        lowerStr_applyStyleRules (wi == 0) (wi == tot - 1) pc s hh hAcs
      simp only [List.map_cons, List.cons.injEq]
      refine ⟨?_, ih (wi + 1) false hrest hArest⟩
      show applyStyleRules R (lowerStr R) (wi == 0) (wi == tot - 1) pc s none none = R
      rw [hlowR]
      exact applyStyleRules_congr (lowerStr cs) (wi == 0) (wi == tot - 1) pc s hlowR hAR hAcs hhR hh
    | false =>
      rw [mkTokens, if_neg (by simp)]
      have hexp : runsOfTokens s
          ({ original := cs, word := none } ::
            mkTokens tot wi (pc || decide (':' ∈ cs)) rest) =
          (false, cs) :: runsOfTokens s (mkTokens tot wi (pc || decide (':' ∈ cs)) rest) := rfl
      rw [hexp, mkTokens, if_neg (by simp)]
      simp only [List.map_cons, List.cons.injEq]
      exact ⟨rfl, ih wi (pc || decide (':' ∈ cs)) hrest hArest⟩

theorem toTitleCase_structure (text : List Char) (style : String) :
    toTitleCase text style = ((runsOfTokens style (tokenize text)).map Prod.snd).flatten := by
  rw [toTitleCase, runsOfTokens_snd]

theorem mem_text_of_mem_splitRuns {text : List Char} {p : Bool × List Char} {c : Char}
    (hp : p ∈ splitRuns text) (hc : c ∈ p.2) : c ∈ text := by
  have h1 : c ∈ ((splitRuns text).map Prod.snd).flatten :=
    List.mem_flatten.mpr ⟨p.2, List.mem_map_of_mem _ hp, hc⟩
  rwa [splitRuns_flatten] at h1

theorem splitRuns_ascii {text : List Char} (hA : ∀ c ∈ text, c.toNat < 128) :
    ∀ p ∈ splitRuns text, ∀ c ∈ p.2, c.toNat < 128 :=
  fun _ hp c hc => hA c (mem_text_of_mem_splitRuns hp hc)

theorem splitRuns_toTitleCase (text : List Char) (style : String)
    (hA : ∀ c ∈ text, c.toNat < 128) :
    splitRuns (toTitleCase text style) = runsOfTokens style (tokenize text) := by
  rw [toTitleCase_structure]
  apply splitRuns_of_runsOk
  rw [tokenize]
  exact runsOk_runsOfTokens style _ _ 0 false (splitRuns_ok text) (splitRuns_ascii hA)

theorem countWordRuns_tokenize (text : List Char) (style : String) :
    countWordRuns (runsOfTokens style (tokenize text)) = countWordRuns (splitRuns text) := by
  rw [tokenize]
  exact countWordRuns_eq_of_fst_eq (runsOfTokens_mkTokens_fst style _ _ 0 false)

theorem toTitleCase_idem (text : List Char) (style : String)
    (hA : ∀ c ∈ text, c.toNat < 128) :
    toTitleCase (toTitleCase text style) style = toTitleCase text style := by
  calc toTitleCase (toTitleCase text style) style
      = ((mkTokens (countWordRuns (splitRuns (toTitleCase text style))) 0 false
          (splitRuns (toTitleCase text style))).map (renderToken style)).flatten := by
        rw [toTitleCase, tokenize]
    _ = ((mkTokens (countWordRuns (splitRuns text)) 0 false
          (runsOfTokens style (tokenize text))).map (renderToken style)).flatten := by
        rw [splitRuns_toTitleCase text style hA, countWordRuns_tokenize]
    _ = ((runsOfTokens style (tokenize text)).map Prod.snd).flatten := by
        rw [tokenize]
        exact congrArg _ (mkTokens_render_pass2 style _ _ 0 false (splitRuns_ok text)
          (splitRuns_ascii hA))
    _ = toTitleCase text style := (toTitleCase_structure text style).symm

theorem forall2_of_mapLower_eq {s1 s2 : List Char}
    (h : s1.map Char.toLower = s2.map Char.toLower) :
    List.Forall₂ (fun c d => Char.toLower c = Char.toLower d) s1 s2 := by
  induction s1 generalizing s2 with
  | nil =>
    cases s2 with
    | nil => exact List.Forall₂.nil
    | cons d t => exact absurd h (by simp)
  | cons c t ih =>
    cases s2 with
    | nil => exact absurd h (by simp)
    | cons d t2 =>
      simp only [List.map_cons, List.cons.injEq] at h
      exact List.Forall₂.cons h.1 (ih h.2)

theorem mapLower_eq_of_forall2 {s1 s2 : List Char}
    (h : List.Forall₂ (fun c d => Char.toLower c = Char.toLower d) s1 s2) :
    s1.map Char.toLower = s2.map Char.toLower := by
  induction h with
  | nil => rfl
  | cons hcd _ ih => simp only [List.map_cons] at ih ⊢; rw [hcd, ih]

theorem isSepChar_congr {c d : Char} (h : Char.toLower c = Char.toLower d) :
    isSepChar c = isSepChar d := by
  rw [← isSepChar_toLower c, ← isSepChar_toLower d, h]

theorem toLower_sep_fix {c : Char} (h : isSepChar c = true) : Char.toLower c = c := by
  have := isSepChar_toNat h
  exact toLower_eq_self (by omega)

theorem sep_run_eq {r1 r2 : List Char}
    (hrel : List.Forall₂ (fun c d => Char.toLower c = Char.toLower d) r1 r2)
    (hsep : ∀ c ∈ r1, isSepChar c = true) : r1 = r2 := by
  induction hrel with
  | nil => rfl
  | cons hcd htl ih =>
    next c d t1 t2 =>
    have hc : isSepChar c = true := hsep c (by simp)
    have hd : isSepChar d = true := by rw [← isSepChar_congr hcd]; exact hc
    rw [ih (fun e he => hsep e (by simp [he])),
      show c = d by rw [← toLower_sep_fix hc, ← toLower_sep_fix hd, hcd]]

theorem splitRunsAux_rel {cs1 cs2 : List Char}
    (hrel : List.Forall₂ (fun c d => Char.toLower c = Char.toLower d) cs1 cs2) :
    ∀ b acc1 acc2, List.Forall₂ (fun c d => Char.toLower c = Char.toLower d) acc1 acc2 →
    List.Forall₂ (fun p q => p.1 = q.1 ∧
        List.Forall₂ (fun c d => Char.toLower c = Char.toLower d) p.2 q.2)
      (splitRunsAux b acc1 cs1) (splitRunsAux b acc2 cs2) := by
  induction hrel with
  | nil =>
    intro b acc1 acc2 hacc
    exact List.Forall₂.cons ⟨rfl, List.forall₂_reverse_iff.mpr hacc⟩ List.Forall₂.nil
  | cons hcd htl ih =>
    next c d t1 t2 =>
    intro b acc1 acc2 hacc
    have hsep : isSepChar c = isSepChar d := isSepChar_congr hcd
    rw [splitRunsAux, splitRunsAux, ← hsep]
    by_cases hb : (!isSepChar c) = b
    · rw [if_pos hb, if_pos hb]
      exact ih b (c :: acc1) (d :: acc2) (List.Forall₂.cons hcd hacc)
    · rw [if_neg hb, if_neg hb]
      exact List.Forall₂.cons ⟨rfl, List.forall₂_reverse_iff.mpr hacc⟩
        (ih (!isSepChar c) [c] [d] (List.Forall₂.cons hcd List.Forall₂.nil))

theorem splitRuns_rel {s1 s2 : List Char}
    (hrel : List.Forall₂ (fun c d => Char.toLower c = Char.toLower d) s1 s2) :
    List.Forall₂ (fun p q => p.1 = q.1 ∧
        List.Forall₂ (fun c d => Char.toLower c = Char.toLower d) p.2 q.2)
      (splitRuns s1) (splitRuns s2) := by
  cases hrel with
  | nil => exact List.Forall₂.nil
  | cons hcd htl =>
    next c d t1 t2 =>
    rw [splitRuns, splitRuns, ← isSepChar_congr hcd]
    exact splitRunsAux_rel htl (!isSepChar c) [c] [d] (List.Forall₂.cons hcd List.Forall₂.nil)

theorem map_fst_eq_of_rel {rs1 rs2 : List (Bool × List Char)}
    (hrel : List.Forall₂ (fun p q => p.1 = q.1 ∧
        List.Forall₂ (fun c d => Char.toLower c = Char.toLower d) p.2 q.2) rs1 rs2) :
    rs1.map Prod.fst = rs2.map Prod.fst := by
  induction hrel with
  | nil => rfl
  | cons hpq _ ih => simp only [List.map_cons]; rw [hpq.1, ih]

theorem mkTokens_render_rel (s : String) (tot : Nat) {rs1 rs2 : List (Bool × List Char)}
    (hrel : List.Forall₂ (fun p q => p.1 = q.1 ∧
        List.Forall₂ (fun c d => Char.toLower c = Char.toLower d) p.2 q.2) rs1 rs2)
    (h1 : runsOk rs1) (h2 : runsOk rs2)
    (hA1 : ∀ p ∈ rs1, ∀ c ∈ p.2, c.toNat < 128)
    (hA2 : ∀ p ∈ rs2, ∀ c ∈ p.2, c.toNat < 128) :
    ∀ wi pc, (mkTokens tot wi pc rs1).map (renderToken s)
      = (mkTokens tot wi pc rs2).map (renderToken s) := by
  induction hrel with
  | nil => intro wi pc; rfl
  | cons hpq htl ih =>
    next p q t1 t2 =>
    obtain ⟨b1, cs1⟩ := p
    obtain ⟨b2, cs2⟩ := q
    obtain ⟨hb, hcs⟩ := hpq
    obtain ⟨hne1, hhom1, _, hrest1⟩ := h1
    obtain ⟨hne2, hhom2, _, hrest2⟩ := h2
    have hAcs1 : ∀ c ∈ cs1, c.toNat < 128 := hA1 (b1, cs1) (by simp)
    have hAcs2 : ∀ c ∈ cs2, c.toNat < 128 := hA2 (b2, cs2) (by simp)
    have hArest1 : ∀ p ∈ t1, ∀ c ∈ p.2, c.toNat < 128 :=
      fun p hp => hA1 p (List.mem_cons_of_mem _ hp)
    have hArest2 : ∀ p ∈ t2, ∀ c ∈ p.2, c.toNat < 128 :=
      fun p hp => hA2 p (List.mem_cons_of_mem _ hp)
    intro wi pc
    simp only at hb
    subst hb
    cases b1 with
    | true =>
      rw [mkTokens, if_pos rfl, mkTokens, if_pos rfl]
      simp only [List.map_cons, List.cons.injEq]
      refine ⟨?_, ih hrest1 hrest2 hArest1 hArest2 (wi + 1) false⟩
      show applyStyleRules cs1 (lowerStr cs1) (wi == 0) (wi == tot - 1) pc s none none =
        applyStyleRules cs2 (lowerStr cs2) (wi == 0) (wi == tot - 1) pc s none none
      have hlow : lowerStr cs1 = lowerStr cs2 := by
        rw [lowerStr_ascii hAcs1, lowerStr_ascii hAcs2]
        exact mapLower_eq_of_forall2 hcs
      have hsf1 : ∀ c ∈ cs1, isSepChar c = false := fun c hc => by
        have := hhom1 c hc; simpa using this
      have hsf2 : ∀ c ∈ cs2, isSepChar c = false := fun c hc => by
        have := hhom2 c hc; simpa using this
      rw [hlow]
      exact applyStyleRules_congr (lowerStr cs2) (wi == 0) (wi == tot - 1) pc s hlow
        hAcs1 hAcs2 (notMem_hyphen hsf1) (notMem_hyphen hsf2)
    | false =>
      have hsep1 : ∀ c ∈ cs1, isSepChar c = true := fun c hc => by
        have := hhom1 c hc; simpa using this
      have hcs_eq : cs1 = cs2 := sep_run_eq hcs hsep1
      subst hcs_eq
      rw [mkTokens, if_neg (by simp), mkTokens, if_neg (by simp)]
      simp only [List.map_cons, List.cons.injEq]
      exact ⟨trivial, ih hrest1 hrest2 hArest1 hArest2 wi (pc || decide (':' ∈ cs1))⟩

theorem toTitleCase_lower_congr {s1 s2 : List Char} (style : String)
    (hA1 : ∀ c ∈ s1, c.toNat < 128) (hA2 : ∀ c ∈ s2, c.toNat < 128)
    (h : lowerStr s1 = lowerStr s2) :
    toTitleCase s1 style = toTitleCase s2 style := by
  rw [lowerStr_ascii hA1, lowerStr_ascii hA2] at h
  have hrel := splitRuns_rel (forall2_of_mapLower_eq h)
  have hcount : countWordRuns (splitRuns s1) = countWordRuns (splitRuns s2) :=
    countWordRuns_eq_of_fst_eq (map_fst_eq_of_rel hrel)
  rw [toTitleCase, toTitleCase, tokenize, tokenize, hcount]
  exact congrArg _
    (mkTokens_render_rel style _ hrel (splitRuns_ok s1) (splitRuns_ok s2)
      (splitRuns_ascii hA1) (splitRuns_ascii hA2) 0 false)

theorem mkTokens_mem_word {tot : Nat} {t : Token} {w : List Char}
    (rs : List (Bool × List Char)) :
    ∀ wi pc, t ∈ mkTokens tot wi pc rs → t.word = some w →
    t.original = w ∧ (true, w) ∈ rs := by
  induction rs with
  | nil => intro wi pc ht _; simp [mkTokens] at ht
  | cons p rest ih =>
    intro wi pc ht hw
    obtain ⟨isW, cs⟩ := p
    cases isW with
    | true =>
      rw [mkTokens, if_pos rfl] at ht
      rcases List.mem_cons.mp ht with rfl | ht2
      · simp only at hw
        obtain rfl : cs = w := Option.some_injective _ hw
        exact ⟨rfl, by simp⟩
      · obtain ⟨h1, h2⟩ := ih (wi + 1) false ht2 hw
        exact ⟨h1, by simp [h2]⟩
    | false =>
      rw [mkTokens, if_neg (by simp)] at ht
      rcases List.mem_cons.mp ht with rfl | ht2
      · simp at hw
      · obtain ⟨h1, h2⟩ := ih wi (pc || decide (':' ∈ cs)) ht2 hw
        exact ⟨h1, by simp [h2]⟩

theorem runsOk_word_sepFree {rs : List (Bool × List Char)} (h : runsOk rs)
    {cs : List Char} (hm : (true, cs) ∈ rs) : ∀ c ∈ cs, isSepChar c = false := by
  induction rs with
  | nil => simp at hm
  | cons p rest ih =>
    obtain ⟨b, r⟩ := p
    obtain ⟨_, hhom, _, hrest⟩ := h
    rcases List.mem_cons.mp hm with he | hm2
    · obtain ⟨hb, hr⟩ := Prod.mk.inj he.symm
      intro c hc
      have := hhom c (hr ▸ hc)
      rw [hb] at this
      simpa using this
    · exact ih hrest hm2

theorem tokenize_word {text : List Char} {t : Token} {w : List Char}
    (ht : t ∈ tokenize text) (hw : t.word = some w) :
    t.original = w ∧ ∀ c ∈ w, isSepChar c = false := by
  rw [tokenize] at ht
  obtain ⟨h1, h2⟩ := mkTokens_mem_word (splitRuns text) 0 false ht hw
  exact ⟨h1, runsOk_word_sepFree (splitRuns_ok text) h2⟩

theorem tokenize_word_mem {text : List Char} {t : Token} {w : List Char}
    (ht : t ∈ tokenize text) (hw : t.word = some w) : ∀ c ∈ w, c ∈ text := by
  rw [tokenize] at ht
  obtain ⟨_, h2⟩ := mkTokens_mem_word (splitRuns text) 0 false ht hw
  exact fun c hc => mem_text_of_mem_splitRuns h2 hc

theorem renderToken_word {s : String} {t : Token} {w : List Char} (hw : t.word = some w) :
    renderToken s t =
      applyStyleRules w (lowerStr w) t.isFirstWord t.isLastWord t.afterColon s none none := by
  rw [renderToken, hw]

theorem caseRel_mapLower (w : List Char) :
    List.Forall₂ charCaseRel w (w.map Char.toLower) := by
  induction w with
  | nil => exact List.Forall₂.nil
  | cons c t ih => exact List.Forall₂.cons (Or.inr (Or.inr rfl)) ih

theorem caseRel_lowerStr {w : List Char} (hA : ∀ c ∈ w, c.toNat < 128) :
    List.Forall₂ charCaseRel w (lowerStr w) := by
  rw [lowerStr_ascii hA]
  exact caseRel_mapLower w

theorem caseRel_capitalize {w : List Char} (hA : ∀ c ∈ w, c.toNat < 128) :
    List.Forall₂ charCaseRel w (capitalize w) := by
  cases w with
  | nil => exact List.Forall₂.nil
  | cons c t =>
    rw [capitalize_ascii (hA c (by simp)) (fun d hd => hA d (by simp [hd]))]
    exact List.Forall₂.cons (Or.inr (Or.inl rfl)) (caseRel_mapLower t)

theorem applyStyleRules_first {w : List Char} (l a : Bool) (s : String) (hh : ¬ '-' ∈ w) :
    applyStyleRules w (lowerStr w) true l a s none none = capitalize w := by
  rw [applyStyleRules_none, if_neg hh, if_pos rfl]

theorem applyStyleRules_last {w : List Char} (f a : Bool) (s : String) (hh : ¬ '-' ∈ w)
    (hs : ¬ (s = "AMA" ∨ s = "APA" ∨ s = "Bluebook")) :
    applyStyleRules w (lowerStr w) f true a s none none = capitalize w := by
  rw [applyStyleRules_none, if_neg hh]
  cases f with
  | true => rw [if_pos rfl]
  | false => rw [if_neg (by simp), if_pos ⟨rfl, hs⟩]

theorem applyStyleRules_mla_mid {w : List Char} (a : Bool) (hh : ¬ '-' ∈ w)
    (hprep : isPreposition (lowerStr w) = true) :
    applyStyleRules w (lowerStr w) false false a "MLA" none none = lowerStr w := by
  rw [applyStyleRules_none, if_neg hh, if_neg (by simp), if_neg (by simp),
    if_neg (by simp), if_neg (by decide), if_neg (by decide), if_neg (by decide),
    if_neg (by decide), if_neg (by decide), if_pos rfl, applyMLARules]
  split_ifs <;> rfl

theorem nytLowercase_short : ∀ lw ∈ nytLowercaseWords, lw.length ≤ 3 := by decide

theorem nyt_lists_disjoint : ∀ lw ∈ nytLowercaseWords, lw ∉ nytCapitalizeWords := by decide

theorem applyStyleRules_nyt_mid_cap {w : List Char} (a : Bool) (hh : ¬ '-' ∈ w)
    (hcap : lowerStr w ∈ nytCapitalizeWords) :
    applyStyleRules w (lowerStr w) false false a "New York Times" none none
      = capitalize w := by
  rw [applyStyleRules_none, if_neg hh, if_neg (by simp), if_neg (by simp),
    if_neg (by simp), if_neg (by decide), if_neg (by decide), if_neg (by decide),
    if_neg (by decide), if_neg (by decide), if_neg (by decide), if_pos rfl,
    applyNYTRules]
  split_ifs <;> rfl

theorem applyStyleRules_nyt_mid_low {w : List Char} (a : Bool) (hh : ¬ '-' ∈ w)
    (hlow : lowerStr w ∈ nytLowercaseWords) :
    applyStyleRules w (lowerStr w) false false a "New York Times" none none
      = lowerStr w := by
  have hlen : ¬ 4 ≤ w.length := by
    have h1 := nytLowercase_short _ hlow
    have h2 := lowerStr_length w
    omega
  have hdisj : ¬ lowerStr w ∈ nytCapitalizeWords := nyt_lists_disjoint _ hlow
  rw [applyStyleRules_none, if_neg hh, if_neg (by simp), if_neg (by simp),
    if_neg (by simp), if_neg (by decide), if_neg (by decide), if_neg (by decide),
    if_neg (by decide), if_neg (by decide), if_neg (by decide), if_pos rfl,
    applyNYTRules, if_neg hlen, if_neg hdisj, if_pos hlow]

theorem applyStyleRules_nyt_mid_long {w : List Char} (a : Bool) (hh : ¬ '-' ∈ w)
    (hlen : 4 ≤ w.length) :
    applyStyleRules w (lowerStr w) false false a "New York Times" none none
      = capitalize w := by
  rw [applyStyleRules_none, if_neg hh, if_neg (by simp), if_neg (by simp),
    if_neg (by simp), if_neg (by decide), if_neg (by decide), if_neg (by decide),
    if_neg (by decide), if_neg (by decide), if_neg (by decide), if_pos rfl,
    applyNYTRules, if_pos hlen]

theorem applyStyleRules_unknown {w : List Char} (f l a : Bool) (s : String)
    (hh : ¬ '-' ∈ w)
    (hs : ¬ (s = "AMA" ∨ s = "AP" ∨ s = "APA" ∨ s = "Bluebook" ∨ s = "Chicago" ∨
      s = "MLA" ∨ s = "New York Times" ∨ s = "Wikipedia")) :
    applyStyleRules w (lowerStr w) f l a s none none = capitalize w := by
  push_neg at hs
  obtain ⟨h1, h2, h3, h4, h5, h6, h7, h8⟩ := hs
  rw [applyStyleRules_none, if_neg hh]
  cases f with
  | true => rw [if_pos rfl]
  | false =>
    rw [if_neg (by simp)]
    cases l with
    | true =>
      rw [if_pos ⟨rfl, by simp [h1, h3, h4]⟩]
    | false =>
      rw [if_neg (by simp), if_neg (by simp [h3]), if_neg h1, if_neg h2, if_neg h3,
        if_neg h4, if_neg h5, if_neg h6, if_neg h7, if_neg h8]

theorem mkTokens_length (tot : Nat) (rs : List (Bool × List Char)) :
    ∀ wi pc, (mkTokens tot wi pc rs).length = rs.length := by
  induction rs with
  | nil => intro wi pc; rfl
  | cons p rest ih =>
    intro wi pc
    obtain ⟨isW, cs⟩ := p
    cases isW with
    | true => rw [mkTokens, if_pos rfl]; simp [ih]
    | false => rw [mkTokens, if_neg (by simp)]; simp [ih]

theorem runsOfTokens_length (s : String) (ts : List Token) :
    (runsOfTokens s ts).length = ts.length := by
  simp [runsOfTokens]

theorem mkTokens_sep_rel (s : String) (tot tot2 : Nat) (rs : List (Bool × List Char)) :
    ∀ wi pc wi2 pc2,
    List.Forall₂ (fun t1 t2 => (t1.word = none ↔ t2.word = none) ∧
        (t1.word = none → t2.original = t1.original))
      (mkTokens tot wi pc rs) (mkTokens tot2 wi2 pc2 (runsOfTokens s (mkTokens tot wi pc rs))) := by
  induction rs with
  | nil => intro wi pc wi2 pc2; exact List.Forall₂.nil
  | cons p rest ih =>
    intro wi pc wi2 pc2
    obtain ⟨isW, cs⟩ := p
    cases isW with
    | true =>
      rw [mkTokens, if_pos rfl]
      have hexp : runsOfTokens s
          ({ original := cs, word := some cs, isFirstWord := wi == 0,
             isLastWord := wi == tot - 1, afterColon := pc } ::
            mkTokens tot (wi + 1) false rest) =
          (true, applyStyleRules cs (lowerStr cs) (wi == 0) (wi == tot - 1) pc s none none) ::
            runsOfTokens s (mkTokens tot (wi + 1) false rest) := rfl
      rw [hexp, mkTokens, if_pos rfl]
      exact List.Forall₂.cons (by simp) (ih (wi + 1) false (wi2 + 1) false)
    | false =>
      rw [mkTokens, if_neg (by simp)]
      have hexp : runsOfTokens s
          ({ original := cs, word := none } ::
            mkTokens tot wi (pc || decide (':' ∈ cs)) rest) =
          (false, cs) :: runsOfTokens s (mkTokens tot wi (pc || decide (':' ∈ cs)) rest) := rfl
      rw [hexp, mkTokens, if_neg (by simp)]
      exact List.Forall₂.cons (by simp)
        (ih wi (pc || decide (':' ∈ cs)) wi2 (pc2 || decide (':' ∈ cs)))

/-- C1, counterexample: the claim that tokenize keeps intra-word hyphens
inside a single word token is false on the code.  The word-matching
regex excludes the hyphen, so tokenize of the string state-of-the-art
produces four word tokens, not one. -/
theorem C1_counterexample :
    ((tokenize ("state-of-the-art".data)).filter (fun t => t.word.isSome)).length = 4 ∧
    ¬ ((tokenize ("state-of-the-art".data)).filter (fun t => t.word.isSome)).length = 1 := by
  decide

/-- C1, amended claim: tokenize treats hyphens as separators even inside
a run of non-whitespace characters; whitespace and the dash characters
(hyphen, em-dash, en-dash) all split words, so state-of-the-art yields
the four word tokens state, of, the, art, with single-hyphen separator
tokens between them, in order. -/
theorem C1_amended :
    ((tokenize ("state-of-the-art".data)).filterMap Token.word) =
      ["state".data, "of".data, "the".data, "art".data] ∧
    (tokenize ("state-of-the-art".data)).map Token.original =
      ["state".data, "-".data, "of".data, "-".data, "the".data, "-".data, "art".data] := by
  decide

/-- C2, counterexample: the unrestricted round-trip claim fails on the
program because JavaScript case mapping is one-to-many.  The input
consisting of the single sharp s character is one word token of length
one, yet toTitleCase capitalizes it to the two-character string SS, so
a character is added and the word is not equal to its recased form up
to letter casing. -/
theorem C2_counterexample :
    toTitleCase ("ß".data) "Chicago" = "SS".data ∧
    ("ß".data).length = 1 ∧ (toTitleCase ("ß".data) "Chicago").length = 2 := by
  decide

/-- C2, amended claim: round-trip structure for inputs within the
one-to-one region of JavaScript case mapping.  For every input string
all of whose characters have code points below 128 and every style,
with no tagger, the output of toTitleCase is the concatenation in
original order of every separator token verbatim and of each word
token replaced by a string equal to it up to letter casing
(charCaseRel holds characterwise, so no characters are added, removed
or reordered), and re-tokenizing the output yields the same token
count with identical separator content. -/
theorem C2_round_trip (text : List Char) (style : String)
    (hA : ∀ c ∈ text, c.toNat < 128) :
    toTitleCase text style = ((tokenize text).map (renderToken style)).flatten ∧
    (∀ t ∈ tokenize text, t.word = none → renderToken style t = t.original) ∧
    (∀ t ∈ tokenize text, ∀ w, t.word = some w →
      List.Forall₂ charCaseRel t.original (renderToken style t)) ∧
    (tokenize (toTitleCase text style)).length = (tokenize text).length ∧
    List.Forall₂ (fun t1 t2 => (t1.word = none ↔ t2.word = none) ∧
        (t1.word = none → t2.original = t1.original))
      (tokenize text) (tokenize (toTitleCase text style)) := by
  refine ⟨rfl, ?_, ?_, ?_, ?_⟩
  · intro t _ hnone
    rw [renderToken, hnone]
  · intro t ht w hw
    obtain ⟨horig, hsf⟩ := tokenize_word ht hw
    have hAw : ∀ c ∈ w, c.toNat < 128 := fun c hc => hA c (tokenize_word_mem ht hw c hc)
    rw [renderToken_word hw, horig]
    rcases applyStyleRules_shape w (lowerStr w) t.isFirstWord t.isLastWord t.afterColon
      style (notMem_hyphen hsf) with he | he <;> rw [he]
    · exact caseRel_lowerStr hAw
    · exact caseRel_capitalize hAw
  · conv_lhs => rw [tokenize]
    rw [mkTokens_length, splitRuns_toTitleCase text style hA, runsOfTokens_length]
  · conv_rhs => rw [tokenize]
    rw [splitRuns_toTitleCase text style hA, tokenize]
    exact mkTokens_sep_rel style _ _ (splitRuns text) 0 false 0 false

/-- C2, witness: the amended round-trip theorem instantiated at a
concrete middle word token of a concrete ASCII input. -/
theorem C2_witness :
    List.Forall₂ charCaseRel ("tale".data)
      (renderToken "Chicago" (⟨"tale".data, some ("tale".data), false, false, false⟩ : Token)) := by
  have h := (C2_round_trip "a tale of x".data "Chicago" (by decide)).2.2.1
  exact h (⟨"tale".data, some ("tale".data), false, false, false⟩ : Token)
    (by decide) ("tale".data) rfl

/-- C3: first/last word force-capitalization.  Every word token flagged
as first word renders as capitalize of its text under every style, and
every word token flagged as last word renders as capitalize of its text
under every style outside AMA, APA and Bluebook; the Chicago example
gives A Tale of Two Cities. -/
theorem C3_first_last (text : List Char) (style : String) (t : Token) (w : List Char)
    (ht : t ∈ tokenize text) (hw : t.word = some w) :
    (t.isFirstWord = true → renderToken style t = capitalize w) ∧
    (t.isLastWord = true → ¬ (style = "AMA" ∨ style = "APA" ∨ style = "Bluebook") →
      renderToken style t = capitalize w) ∧
    toTitleCase ("a tale of two cities".data) "Chicago" = "A Tale of Two Cities".data := by
  obtain ⟨_, hsf⟩ := tokenize_word ht hw
  have hh := notMem_hyphen hsf
  refine ⟨?_, ?_, by decide⟩
  · intro hf
    rw [renderToken_word hw, hf]
    exact applyStyleRules_first _ _ _ hh
  · intro hl hs
    rw [renderToken_word hw, hl]
    exact applyStyleRules_last _ _ _ hh hs

/-- C3, witness: the force-capitalization theorem applied to the first
word token of a concrete input. -/
theorem C3_witness :
    renderToken "Chicago" (⟨"a".data, some ("a".data), true, false, false⟩ : Token) =
      capitalize ("a".data) :=
  (C3_first_last "a b".data "Chicago"
    (⟨"a".data, some ("a".data), true, false, false⟩ : Token)
    ("a".data) (by decide) rfl).1 rfl

/-- C4, counterexample: the program is not idempotent on inputs
subject to one-to-many case mapping.  toTitleCase of the sharp s gives
SS, and a second application of the same style gives Ss, which differs
from SS. -/
theorem C4_counterexample :
    toTitleCase ("ß".data) "Chicago" = "SS".data ∧
    toTitleCase (toTitleCase ("ß".data) "Chicago") "Chicago" = "Ss".data ∧
    ¬ toTitleCase (toTitleCase ("ß".data) "Chicago") "Chicago" =
        toTitleCase ("ß".data) "Chicago" := by
  decide

/-- C4, amended claim: same-style idempotence on the one-to-one region
of JavaScript case mapping.  For every input string all of whose
characters have code points below 128 and every style, with no tagger,
applying toTitleCase twice with the same style equals applying it
once. -/
theorem C4_same_style_idempotent (text : List Char) (style : String)
    (hA : ∀ c ∈ text, c.toNat < 128) :
    toTitleCase (toTitleCase text style) style = toTitleCase text style :=
  toTitleCase_idem text style hA

/-- C4, witness: the amended idempotence theorem applied to a concrete
ASCII input. -/
theorem C4_witness :
    toTitleCase (toTitleCase ("a tale of two cities".data) "Chicago") "Chicago" =
      toTitleCase ("a tale of two cities".data) "Chicago" :=
  C4_same_style_idempotent ("a tale of two cities".data) "Chicago" (by decide)

/-- C5: MLA lowercases all prepositions regardless of length.  Every
word token of the static preposition lists that is neither first nor
last renders in all-lowercase under MLA, and the example input life
beyond the stars yields Life beyond the Stars. -/
theorem C5_mla_lowercases_all_prepositions (text : List Char) (t : Token) (w : List Char)
    (ht : t ∈ tokenize text) (hw : t.word = some w)
    (hprep : isPreposition (lowerStr w) = true)
    (hf : t.isFirstWord = false) (hl : t.isLastWord = false) :
    renderToken "MLA" t = lowerStr w ∧
    toTitleCase ("life beyond the stars".data) "MLA" = "Life beyond the Stars".data := by
  obtain ⟨_, hsf⟩ := tokenize_word ht hw
  refine ⟨?_, by decide⟩
  rw [renderToken_word hw, hf, hl]
  exact applyStyleRules_mla_mid t.afterColon (notMem_hyphen hsf) hprep

/-- C5, witness: the MLA preposition theorem applied to the token of the
six-letter preposition beyond in the example input. -/
theorem C5_witness :
    renderToken "MLA" (⟨"beyond".data, some ("beyond".data), false, false, false⟩ : Token) =
      lowerStr ("beyond".data) :=
  (C5_mla_lowercases_all_prepositions "life beyond the stars".data
    (⟨"beyond".data, some ("beyond".data), false, false, false⟩ : Token)
    ("beyond".data) (by decide) rfl (by decide) rfl rfl).1

/-- C6: hyphenated-compound example.  Under Chicago with no tagger, the
input state-of-the-art design converts to State-of-the-Art Design: the
segment state is capitalized as first word, the segments of and the are
lowercased (short preposition and article), art is capitalized, and
design is capitalized as last word. -/
theorem C6_hyphenated_chicago :
    toTitleCase ("state-of-the-art design".data) "Chicago" =
      "State-of-the-Art Design".data ∧
    renderToken "Chicago" (⟨"state".data, some ("state".data), true, false, false⟩ : Token) =
      "State".data ∧
    renderToken "Chicago" (⟨"of".data, some ("of".data), false, false, false⟩ : Token) =
      "of".data ∧
    renderToken "Chicago" (⟨"the".data, some ("the".data), false, false, false⟩ : Token) =
      "the".data ∧
    renderToken "Chicago" (⟨"art".data, some ("art".data), false, false, false⟩ : Token) =
      "Art".data ∧
    renderToken "Chicago" (⟨"design".data, some ("design".data), false, true, false⟩ : Token) =
      "Design".data := by
  decide

/-- C7: New York Times override lists.  For a non-first non-last word
token, a lowercase form in the NYT capitalize list is capitalized, one
in the NYT lowercase list is lowercased, any word of four or more
letters is capitalized, and the example input up in arms yields
Up in Arms. -/
theorem C7_nyt_overrides (text : List Char) (t : Token) (w : List Char)
    (ht : t ∈ tokenize text) (hw : t.word = some w)
    (hf : t.isFirstWord = false) (hl : t.isLastWord = false) :
    (lowerStr w ∈ nytCapitalizeWords → renderToken "New York Times" t = capitalize w) ∧
    (lowerStr w ∈ nytLowercaseWords → renderToken "New York Times" t = lowerStr w) ∧
    (4 ≤ w.length → renderToken "New York Times" t = capitalize w) ∧
    toTitleCase ("up in arms".data) "New York Times" = "Up in Arms".data := by
  obtain ⟨_, hsf⟩ := tokenize_word ht hw
  have hh := notMem_hyphen hsf
  refine ⟨?_, ?_, ?_, by decide⟩
  · intro hcap
    rw [renderToken_word hw, hf, hl]
    exact applyStyleRules_nyt_mid_cap t.afterColon hh hcap
  · intro hlow
    rw [renderToken_word hw, hf, hl]
    exact applyStyleRules_nyt_mid_low t.afterColon hh hlow
  · intro hlen
    rw [renderToken_word hw, hf, hl]
    exact applyStyleRules_nyt_mid_long t.afterColon hh hlen

/-- C7, witness: the NYT theorem applied to the token of the word in
from the example input, which lies in the NYT lowercase list. -/
theorem C7_witness :
    renderToken "New York Times" (⟨"in".data, some ("in".data), false, false, false⟩ : Token) =
      lowerStr ("in".data) :=
  (C7_nyt_overrides "up in arms".data
    (⟨"in".data, some ("in".data), false, false, false⟩ : Token)
    ("in".data) (by decide) rfl rfl rfl).2.1 (by decide)

/-- C8: unknown style identifier.  For every input and every style
string that is none of the eight named styles, toTitleCase totally
computes the join of the rendered tokens and every word token renders
as capitalize of its text. -/
theorem C8_unknown_style_capitalizes (text : List Char) (style : String)
    (hs : ¬ (style = "AMA" ∨ style = "AP" ∨ style = "APA" ∨ style = "Bluebook" ∨
      style = "Chicago" ∨ style = "MLA" ∨ style = "New York Times" ∨ style = "Wikipedia")) :
    toTitleCase text style = ((tokenize text).map (renderToken style)).flatten ∧
    ∀ t ∈ tokenize text, ∀ w, t.word = some w → renderToken style t = capitalize w := by
  refine ⟨rfl, ?_⟩
  intro t ht w hw
  obtain ⟨_, hsf⟩ := tokenize_word ht hw
  rw [renderToken_word hw]
  exact applyStyleRules_unknown t.isFirstWord t.isLastWord t.afterColon style
    (notMem_hyphen hsf) hs

/-- C8, witness: the unknown-style theorem applied to the style
Turabian and a concrete word token. -/
theorem C8_witness :
    renderToken "Turabian" (⟨"b".data, some ("b".data), false, true, false⟩ : Token) =
      capitalize ("b".data) :=
  (C8_unknown_style_capitalizes "a b".data "Turabian" (by decide)).2
    (⟨"b".data, some ("b".data), false, true, false⟩ : Token) (by decide) ("b".data) rfl

/-- C9, counterexample: the two-run case-insensitivity claim fails on
the program.  The capital sharp s and the small sharp s are equal after
lowercasing, yet toTitleCase maps the former to itself and the latter
to SS, so two inputs equal after lowercasing produce different
outputs. -/
theorem C9_counterexample :
    lowerStr ("ẞ".data) = lowerStr ("ß".data) ∧
    toTitleCase ("ẞ".data) "Chicago" = "ẞ".data ∧
    toTitleCase ("ß".data) "Chicago" = "SS".data ∧
    ¬ toTitleCase ("ẞ".data) "Chicago" = toTitleCase ("ß".data) "Chicago" := by
  decide

/-- C9, amended claim: case-insensitivity on the one-to-one region of
JavaScript case mapping.  For every style and any two input strings
whose characters have code points below 128, equality after
lowercasing implies identical outputs of toTitleCase; pre-existing
internal capitalization is still not preserved, and McDonald under
Chicago comes out as Mcdonald. -/
theorem C9_case_insensitive (s1 s2 : List Char) (style : String)
    (hA1 : ∀ c ∈ s1, c.toNat < 128) (hA2 : ∀ c ∈ s2, c.toNat < 128)
    (h : lowerStr s1 = lowerStr s2) :
    toTitleCase s1 style = toTitleCase s2 style ∧
    toTitleCase ("McDonald".data) "Chicago" = "Mcdonald".data :=
  ⟨toTitleCase_lower_congr style hA1 hA2 h, by decide⟩

/-- C9, witness: the amended two-run theorem applied to two concrete
ASCII inputs that agree after lowercasing. -/
theorem C9_witness :
    toTitleCase ("HELLO world".data) "Chicago" = toTitleCase ("hello WORLD".data) "Chicago" :=
  (C9_case_insensitive ("HELLO world".data) ("hello WORLD".data) "Chicago"
    (by decide) (by decide) (by decide)).1

/-- C10: word tokens produced by tokenize contain no hyphen, en-dash,
em-dash, or whitespace character, so the hyphen test at the top of
applyStyleRules is never true for a token reaching it through the
public conversion path and handleHyphenatedWord is never invoked
there. -/
theorem C10_word_tokens_sep_free (text : List Char) (t : Token) (w : List Char)
    (ht : t ∈ tokenize text) (hw : t.word = some w) :
    (∀ c ∈ w, isJsWhitespace c = false ∧ ¬ c = '-' ∧ ¬ c = '—' ∧ ¬ c = '–') ∧
    ¬ '-' ∈ w := by
  obtain ⟨_, hsf⟩ := tokenize_word ht hw
  refine ⟨?_, notMem_hyphen hsf⟩
  intro c hc
  have := hsf c hc
  simp only [isSepChar, Bool.or_eq_false_iff, beq_eq_false_iff_ne, ne_eq] at this
  exact ⟨this.1.1.1, this.1.1.2, this.1.2, this.2⟩

/-- C10, witness: the separator-freeness theorem applied to the token
art of a hyphenated input. -/
theorem C10_witness :
    ¬ '-' ∈ ("art".data) :=
  (C10_word_tokens_sep_free "state-of-the-art".data
    (⟨"art".data, some ("art".data), false, true, false⟩ : Token)
    ("art".data) (by decide) rfl).2

end TitleCase
